import Mathlib

/-!
# Spin locks of hw3.cpp: an interleaving model

The seven lock classes of `hw3.cpp`, the worker `Incr`, the timing harness
`LockTest::GetAverageTestTime` and the sweep of `main` are embedded as Lean
definitions.  A thread is a program counter; one transition of a thread is one
atomic access to shared memory (`test_and_set`, `exchange`, `load`,
`__sync_lock_test_and_set`, `__sync_bool_compare_and_swap`,
`__sync_fetch_and_add`, a plain read or write of `num`).  Executions are
arbitrary interleavings of such transitions.

C++ `int` values are integers kept in the 32 bit two's complement range by
`wrap32`; the atomic built-ins and `++num` wrap around as the x86 code that
gcc emits does.
-/

namespace Hw3

/-! ## Constants and machine integers -/

/-- The constant `hurdle` of hw3.cpp line 9. -/
def hurdle : Int := 1000000

/-- The constant `testCnt` of hw3.cpp line 10. -/
def testCnt : Nat := 10

/-- The constant `numThread` of hw3.cpp line 11. -/
def numThread : Nat := 8

/-- Largest value of a C++ `int`. -/
def INT_MAX : Int := 2147483647

/-- Smallest value of a C++ `int`. -/
def INT_MIN : Int := -2147483648

/-- Reduction of an integer to the 32 bit two's complement range. -/
@[irreducible]
def wrap32 (x : Int) : Int := (x + 2147483648) % 4294967296 - 2147483648

/-! ## The lock classes -/

/-- The seven classes deriving from `ILock`. -/
inductive Variant where
  | TASlock
  | TASlock2
  | TASlock3
  | TTASlock
  | TTASlock2
  | CASlock
  | FAAlock
deriving DecidableEq, Repr

/-- Data members of a lock object.  The six flag classes have the single member
`state`; `FAAlock` has `ticketNumber` and `turn`.  A class reads and writes its
own members only. -/
structure LockObj where
  state : Bool
  ticketNumber : Int
  turn : Int
deriving DecidableEq, Repr

/-- Every constructor: `state(false)` (or `ATOMIC_FLAG_INIT`), respectively
`ticketNumber(0), turn(0)`. -/
def fresh : LockObj := ⟨false, 0, 0⟩

/-- Position of a thread with respect to one lock object. -/
inductive LPC where
  /-- outside `Lock()` and `Unlock()`, not holding the lock -/
  | idle
  /-- inside `Lock()`, a failed read-modify-write is being retried -/
  | spin
  /-- inside `Lock()` of a TTAS class, in the inner loop that reads `state` -/
  | test
  /-- inside `Lock()` of a TTAS class, inner loop left, exchange not yet done -/
  | swap
  /-- inside `FAAlock::Lock()`, in `while (turn != myturn) {}` -/
  | wait (myturn : Int)
  /-- `Lock()` has returned and `Unlock()` has not been called -/
  | held
deriving DecidableEq, Repr

/-- `TASlock::Lock`: `while (state.test_and_set(std::memory_order_acquire)) {}`.
One transition is one `test_and_set`. -/
def TASlock.Lock (l : LockObj) : LPC → Option (LockObj × LPC)
  | .idle => some ({ l with state := true }, if l.state then .spin else .held)
  | .spin => some ({ l with state := true }, if l.state then .spin else .held)
  | _ => none

/-- `TASlock::Unlock`: `state.clear()`. -/
def TASlock.Unlock (l : LockObj) : LockObj := { l with state := false }

/-- `TASlock2::Lock`: `while (state.exchange(true)) {}`. -/
def TASlock2.Lock (l : LockObj) : LPC → Option (LockObj × LPC)
  | .idle => some ({ l with state := true }, if l.state then .spin else .held)
  | .spin => some ({ l with state := true }, if l.state then .spin else .held)
  | _ => none

/-- `TASlock2::Unlock`: `state.store(false)`. -/
def TASlock2.Unlock (l : LockObj) : LockObj := { l with state := false }

/-- `TASlock3::Lock`: `while (__sync_lock_test_and_set(&state, true)) {}`. -/
def TASlock3.Lock (l : LockObj) : LPC → Option (LockObj × LPC)
  | .idle => some ({ l with state := true }, if l.state then .spin else .held)
  | .spin => some ({ l with state := true }, if l.state then .spin else .held)
  | _ => none

/-- `TASlock3::Unlock`: `__sync_lock_release(&state)`, which writes 0. -/
def TASlock3.Unlock (l : LockObj) : LockObj := { l with state := false }

/-- `TTASlock::Lock`: the inner loop `while (state.load()) {}` followed by
`if (state.exchange(true) == false) return;` inside `while (true)`. -/
def TTASlock.Lock (l : LockObj) : LPC → Option (LockObj × LPC)
  | .idle => some (l, if l.state then .test else .swap)
  | .test => some (l, if l.state then .test else .swap)
  | .swap => some ({ l with state := true }, if l.state == false then .held else .test)
  | _ => none

/-- `TTASlock::Unlock`: `state.store(false)`. -/
def TTASlock.Unlock (l : LockObj) : LockObj := { l with state := false }

/-- `TTASlock2::Lock`: `while (state) {}` followed by
`if (__sync_lock_test_and_set(&state, true) == false) return;`. -/
def TTASlock2.Lock (l : LockObj) : LPC → Option (LockObj × LPC)
  | .idle => some (l, if l.state then .test else .swap)
  | .test => some (l, if l.state then .test else .swap)
  | .swap => some ({ l with state := true }, if l.state == false then .held else .test)
  | _ => none

/-- `TTASlock2::Unlock`: `__sync_lock_release(&state)`. -/
def TTASlock2.Unlock (l : LockObj) : LockObj := { l with state := false }

/-- The built-in `__sync_bool_compare_and_swap(&state, expected, desired)`:
the new value of `state` and the returned success flag. -/
def sync_bool_compare_and_swap (state expected desired : Bool) : Bool × Bool :=
  if state == expected then (desired, true) else (state, false)

/-- `CASlock::Lock`:
`while (__sync_bool_compare_and_swap(&state, false, true) == false) {}`. -/
def CASlock.Lock (l : LockObj) : LPC → Option (LockObj × LPC)
  | .idle =>
    let r := sync_bool_compare_and_swap l.state false true
    some ({ l with state := r.1 }, if r.2 == false then .spin else .held)
  | .spin =>
    let r := sync_bool_compare_and_swap l.state false true
    some ({ l with state := r.1 }, if r.2 == false then .spin else .held)
  | _ => none

/-- `CASlock::Unlock`: `__sync_bool_compare_and_swap(&state, true, false)`, the
result of which is ignored. -/
def CASlock.Unlock (l : LockObj) : LockObj :=
  { l with state := (sync_bool_compare_and_swap l.state true false).1 }

/-- `FAAlock::Lock`: `int myturn = __sync_fetch_and_add(&ticketNumber, 1);`
followed by `while (turn != myturn) {}`.  One transition is the fetch-and-add or
one read of `turn`. -/
def FAAlock.Lock (l : LockObj) : LPC → Option (LockObj × LPC)
  | .idle => some ({ l with ticketNumber := wrap32 (l.ticketNumber + 1) }, .wait l.ticketNumber)
  | .wait myturn => some (l, if l.turn != myturn then .wait myturn else .held)
  | _ => none

/-- `FAAlock::Unlock`: `__sync_fetch_and_add(&turn, 1)`. -/
def FAAlock.Unlock (l : LockObj) : LockObj := { l with turn := wrap32 (l.turn + 1) }

/-- Virtual dispatch of `ILock::Lock`. -/
def ILock.Lock : Variant → LockObj → LPC → Option (LockObj × LPC)
  | .TASlock => TASlock.Lock
  | .TASlock2 => TASlock2.Lock
  | .TASlock3 => TASlock3.Lock
  | .TTASlock => TTASlock.Lock
  | .TTASlock2 => TTASlock2.Lock
  | .CASlock => CASlock.Lock
  | .FAAlock => FAAlock.Lock

/-- Virtual dispatch of `ILock::Unlock`. -/
def ILock.Unlock : Variant → LockObj → LockObj
  | .TASlock => TASlock.Unlock
  | .TASlock2 => TASlock2.Unlock
  | .TASlock3 => TASlock3.Unlock
  | .TTASlock => TTASlock.Unlock
  | .TTASlock2 => TTASlock2.Unlock
  | .CASlock => CASlock.Unlock
  | .FAAlock => FAAlock.Unlock

/-- One atomic transition of a thread that uses the lock correctly: a thread
that holds the lock calls `Unlock()`, any other thread is in (or enters)
`Lock()`. -/
def tstep (v : Variant) (l : LockObj) : LPC → Option (LockObj × LPC)
  | .held => some (ILock.Unlock v l, .idle)
  | p => ILock.Lock v l p

/-! ## Threads sharing one lock -/

/-- A lock object shared by `n` threads. -/
structure LState (n : Nat) where
  lock : LockObj
  pc : Fin n → LPC

/-- All threads outside the lock operations, the lock being `l0`. -/
def LState.init (n : Nat) (l0 : LockObj) : LState n := ⟨l0, fun _ => .idle⟩

/-- Thread `i` takes one transition. -/
def LState.step {n : Nat} (v : Variant) (s : LState n) (i : Fin n) : Option (LState n) :=
  match tstep v s.lock (s.pc i) with
  | some (l', p') => some ⟨l', Function.update s.pc i p'⟩
  | none => none

/-- States reached from `LState.init n l0` by interleaving transitions. -/
inductive LReach (v : Variant) {n : Nat} (l0 : LockObj) : LState n → Prop where
  | init : LReach v l0 (LState.init n l0)
  | step {s s' : LState n} (i : Fin n) : LReach v l0 s → s.step v i = some s' → LReach v l0 s'

/-- Executions with two recorded histories: `iss` lists the threads in the order
in which they entered `Lock()` (for `FAAlock`, the order of the fetch-and-add
on `ticketNumber`), `acq` lists them in the order in which `Lock()` returned. -/
inductive LTrace (v : Variant) {n : Nat} (l0 : LockObj) :
    LState n → List (Fin n) → List (Fin n) → Prop where
  | init : LTrace v l0 (LState.init n l0) [] []
  | step {s s' : LState n} {iss acq : List (Fin n)} (i : Fin n) :
      LTrace v l0 s iss acq → s.step v i = some s' →
      LTrace v l0 s'
        (if s.pc i = .idle then iss ++ [i] else iss)
        (if s'.pc i = .held then acq ++ [i] else acq)

/-- The lock is free and nobody waits for it. -/
def released (v : Variant) (l : LockObj) : Prop :=
  match v with
  | .FAAlock => l.turn = l.ticketNumber ∧ wrap32 l.turn = l.turn
  | _ => l.state = false

/-- Invariant of the six flag classes: `state` is set exactly while some thread
holds the lock, and at most one thread holds it. -/
def FlagInv {n : Nat} (s : LState n) : Prop :=
  (s.lock.state = true ↔ ∃ i, s.pc i = .held) ∧
  ∀ i j, s.pc i = .held → s.pc j = .held → i = j

/-- Whether a thread has drawn a ticket that has not been given back: it waits
for its turn or holds the lock. -/
def LPC.active : LPC → Bool
  | .wait _ => true
  | .held => true
  | _ => false

/-- Unbounded bookkeeping for `FAAlock`, not stored by the program: `base` is
the number of tickets drawn before the execution started, `served` and `issued`
count the completed `Unlock()` calls and the fetch-and-adds on `ticketNumber`
without wrapping, and `tk i` is the unwrapped ticket of thread `i`. -/
structure Ghost (n : Nat) where
  base : Nat
  served : Nat
  issued : Nat
  tk : Fin n → Nat

/-- Invariant of `FAAlock`: the members are the wrapped counters, and the
threads that wait or hold own exactly the tickets from `served` up to
`issued - 1`, one each; the holder owns ticket `served`. -/
structure FAAInv {n : Nat} (s : LState n) (g : Ghost n) : Prop where
  turn_eq : s.lock.turn = wrap32 g.served
  tick_eq : s.lock.ticketNumber = wrap32 g.issued
  le : g.served ≤ g.issued
  rng : ∀ i, (s.pc i).active = true → g.served ≤ g.tk i ∧ g.tk i < g.issued
  myturn : ∀ i m, s.pc i = .wait m → m = wrap32 (g.tk i)
  inj : ∀ i j, (s.pc i).active = true → (s.pc j).active = true → g.tk i = g.tk j → i = j
  surj : ∀ k, g.served ≤ k → k < g.issued → ∃ i, (s.pc i).active = true ∧ g.tk i = k
  holder : ∀ i, s.pc i = .held → g.tk i = g.served

/-- Invariant tying the two histories of `LTrace` to the bookkeeping: the issue
history lists the owners of the tickets in ticket order, and the acquisition
history is its initial segment up to the ticket being served. -/
structure LogInv {n : Nat} (s : LState n) (g : Ghost n) (iss acq : List (Fin n)) : Prop where
  base_le : g.base ≤ g.served
  iss_len : iss.length + g.base = g.issued
  iss_tk : ∀ i, (s.pc i).active = true → iss[g.tk i - g.base]? = some i
  acq_eq : (acq = iss.take (g.served - g.base) ∧ ∀ i, s.pc i ≠ .held) ∨
    (acq = iss.take (g.served - g.base + 1) ∧ ∃ i, s.pc i = .held)

/-- Execution of a schedule: the listed threads take one transition each, in
order. -/
def LState.run {n : Nat} (v : Variant) : LState n → List (Fin n) → Option (LState n)
  | s, [] => some s
  | s, i :: sched =>
    match s.step v i with
    | some s' => LState.run v s' sched
    | none => none

/-- Execution of a schedule together with the two histories of `LTrace`. -/
def LState.runLog {n : Nat} (v : Variant) :
    LState n × List (Fin n) × List (Fin n) → List (Fin n) →
    Option (LState n × List (Fin n) × List (Fin n))
  | c, [] => some c
  | (s, iss, acq), i :: sched =>
    match s.step v i with
    | some s' =>
      LState.runLog v
        (s', if s.pc i = .idle then iss ++ [i] else iss,
          if s'.pc i = .held then acq ++ [i] else acq) sched
    | none => none

/-! ## The worker `Incr` -/

/-- Position of a worker thread inside `Incr`. -/
inductive WPC where
  /-- at `lock.Lock()`: about to call it (`p = idle`) or inside it -/
  | lock (p : LPC)
  /-- `Lock()` has returned, `++num` has not yet read `num` -/
  | load
  /-- `++num` has read the value `tmp` and has not yet written `tmp + 1` -/
  | store (tmp : Int)
  /-- `prior = ++num` is done, `lock.Unlock()` has not yet been called -/
  | unlock (prior : Int)
  /-- `Incr` has returned -/
  | done
deriving DecidableEq, Repr

/-- Memory shared by the workers of one trial: the lock object and `num`. -/
structure Shared where
  lock : LockObj
  num : Int
deriving DecidableEq, Repr

/-- One atomic transition of a thread running `Incr(lock, num)`:
`while (true) { lock.Lock(); prior = ++num; lock.Unlock();
if (prior > hurdle) return; }`.  The increment of the plain `int` is a read
followed by a write; the test of `prior` is local and is taken together with
`Unlock()`. -/
def Incr (v : Variant) (hurdle : Int) (m : Shared) : WPC → Option (Shared × WPC)
  | .lock p =>
    match ILock.Lock v m.lock p with
    | some (l', .held) => some (⟨l', m.num⟩, .load)
    | some (l', p') => some (⟨l', m.num⟩, .lock p')
    | none => none
  | .load => some (m, .store m.num)
  | .store tmp => some (⟨m.lock, wrap32 (tmp + 1)⟩, .unlock (wrap32 (tmp + 1)))
  | .unlock prior =>
    some (⟨ILock.Unlock v m.lock, m.num⟩, if prior > hurdle then .done else .lock .idle)
  | .done => none

/-- The shared memory and the `n` workers of one trial. -/
structure WState (n : Nat) where
  mem : Shared
  pc : Fin n → WPC

/-- Start of a trial of `GetAverageTestTime`: `int num = 0`, every worker at the
top of `Incr`, the lock object as the previous trials left it. -/
def WState.init (n : Nat) (l0 : LockObj) : WState n := ⟨⟨l0, 0⟩, fun _ => .lock .idle⟩

/-- Worker `i` takes one transition. -/
def WState.step {n : Nat} (v : Variant) (hurdle : Int) (s : WState n) (i : Fin n) :
    Option (WState n) :=
  match Incr v hurdle s.mem (s.pc i) with
  | some (m', p') => some ⟨m', Function.update s.pc i p'⟩
  | none => none

/-- States of a trial reached by interleaving transitions of the workers. -/
inductive WReach (v : Variant) (hurdle : Int) {n : Nat} (l0 : LockObj) : WState n → Prop where
  | init : WReach v hurdle l0 (WState.init n l0)
  | step {s s' : WState n} (i : Fin n) :
      WReach v hurdle l0 s → s.step v hurdle i = some s' → WReach v hurdle l0 s'

/-- Execution of a schedule by the workers. -/
def WState.run {n : Nat} (v : Variant) (hurdle : Int) :
    WState n → List (Fin n) → Option (WState n)
  | s, [] => some s
  | s, i :: sched =>
    match s.step v hurdle i with
    | some s' => WState.run v hurdle s' sched
    | none => none

/-- A worker has returned or has completed the increment after which it
returns: its `prior` exceeds the hurdle. -/
def WPC.finishing (hurdle : Int) : WPC → Bool
  | .done => true
  | .unlock prior => decide (prior > hurdle)
  | _ => false

/-- Number of threads whose position satisfies `P`. -/
def countPC {n : Nat} {α : Type} (P : α → Bool) (pc : Fin n → α) : Nat :=
  (Finset.univ.filter fun i => P (pc i) = true).card

/-- Position of a worker with respect to the lock. -/
def WPC.toLPC : WPC → LPC
  | .lock p => p
  | .load => .held
  | .store _ => .held
  | .unlock _ => .held
  | .done => .idle

/-- The lock and the positions of the workers with respect to it. -/
def WState.proj {n : Nat} (s : WState n) : LState n :=
  ⟨s.mem.lock, fun i => (s.pc i).toLPC⟩

/-- Invariant of a trial that holds for every lock: `num` never exceeds the
hurdle by more than the number of finishing workers, neither does a value read
by a worker in the middle of `++num`, and once every worker is finishing `num`
exceeds the hurdle. -/
structure WInv {n : Nat} (hurdle : Int) (s : WState n) : Prop where
  num_ge : -2147483648 ≤ s.mem.num
  num_le : s.mem.num ≤ hurdle + countPC (WPC.finishing hurdle) s.pc
  tmp_ge : ∀ i tmp, s.pc i = .store tmp → -2147483648 ≤ tmp
  tmp_le : ∀ i tmp, s.pc i = .store tmp → tmp ≤ hurdle + countPC (WPC.finishing hurdle) s.pc
  prior_le : ∀ i prior, s.pc i = .unlock prior → prior ≤ s.mem.num ∨ prior ≤ hurdle
  all_fin : (∀ i, (s.pc i).finishing hurdle = true) → hurdle < s.mem.num

/-! ## Theorems -/

theorem flag_step_cases (v : Variant) (hv : v ≠ .FAAlock) (l l' : LockObj) (p p' : LPC)
    (h : tstep v l p = some (l', p')) :
    (p ≠ .held ∧ p' ≠ .held ∧ l'.state = l.state) ∨
    (p ≠ .held ∧ p' = .held ∧ l.state = false ∧ l'.state = true) ∨
    (p = .held ∧ p' = .idle ∧ l'.state = false) := by
  obtain ⟨st, tn, tu⟩ := l
  cases v <;> cases p <;> cases st <;>
    simp_all [tstep, ILock.Lock, ILock.Unlock, TASlock.Lock, TASlock2.Lock, TASlock3.Lock,
      TTASlock.Lock, TTASlock2.Lock, CASlock.Lock, TASlock.Unlock, TASlock2.Unlock,
      TASlock3.Unlock, TTASlock.Unlock, TTASlock2.Unlock, CASlock.Unlock,
      sync_bool_compare_and_swap] <;>
    (obtain ⟨rfl, rfl⟩ := h; simp)

theorem LState.step_eq {n : Nat} {v : Variant} {s s' : LState n} {i : Fin n}
    (h : s.step v i = some s') :
    ∃ l' p', tstep v s.lock (s.pc i) = some (l', p') ∧ s' = ⟨l', Function.update s.pc i p'⟩ := by
  unfold LState.step at h
  split at h
  · next l' p' heq => exact ⟨l', p', heq, by simpa using h.symm⟩
  · simp at h

theorem FlagInv.step {n : Nat} {v : Variant} (hv : v ≠ .FAAlock) {s s' : LState n} {i : Fin n}
    (hinv : FlagInv s) (h : s.step v i = some s') : FlagInv s' := by
  obtain ⟨l', p', ht, rfl⟩ := LState.step_eq h
  obtain ⟨hst, huniq⟩ := hinv
  have hpc : ∀ j, Function.update s.pc i p' j = if j = i then p' else s.pc j := by
    intro j; by_cases hj : j = i
    · subst hj; simp
    · simp [Function.update_noteq hj, hj]
  rcases flag_step_cases v hv _ _ _ _ ht with ⟨hp, hp', hl⟩ | ⟨hp, hp', hl, hl'⟩ | ⟨hp, hp', hl'⟩
  · have hiff : ∀ j, Function.update s.pc i p' j = .held ↔ s.pc j = .held := by
      intro j; rw [hpc]; by_cases hj : j = i
      · subst hj; simp [hp, hp']
      · simp [hj]
    refine ⟨?_, ?_⟩
    · simp only [hiff, hl]; exact hst
    · intro a b ha hb; exact huniq a b ((hiff a).1 ha) ((hiff b).1 hb)
  · have hno : ∀ j, s.pc j ≠ .held := by
      intro j hj
      have := hst.2 ⟨j, hj⟩
      simp [hl] at this
    have hiff : ∀ j, Function.update s.pc i p' j = .held ↔ j = i := by
      intro j; rw [hpc]; by_cases hj : j = i
      · subst hj; simp [hp']
      · simp [hj, hno j]
    refine ⟨?_, ?_⟩
    · simp only [hiff, hl']; simp
    · intro a b ha hb; rw [(hiff a).1 ha, (hiff b).1 hb]
  · have hiff : ∀ j, Function.update s.pc i p' j ≠ .held := by
      intro j; rw [hpc]; by_cases hj : j = i
      · subst hj; simp [hp']
      · simp only [hj, if_false]; intro hjh; exact hj (huniq j i hjh hp)
    refine ⟨?_, ?_⟩
    · simp only [hl']; constructor
      · intro hc; simp at hc
      · rintro ⟨j, hj⟩; exact absurd hj (hiff j)
    · intro a b ha; exact absurd ha (hiff a)

theorem wrap32_zero : wrap32 0 = 0 := by
  unfold wrap32; norm_num

theorem wrap32_succ (a : Int) : wrap32 (wrap32 a + 1) = wrap32 (a + 1) := by
  unfold wrap32; omega

theorem wrap32_inj_of_lt (a b : Nat) (hab : a ≤ b) (hb : b < a + 4294967296)
    (h : wrap32 (a : Int) = wrap32 (b : Int)) : a = b := by
  unfold wrap32 at h; omega

theorem wrap32_of_lt (a : Nat) (h : a < 2147483648) : wrap32 (a : Int) = a := by
  unfold wrap32; omega

theorem faa_step_cases (l l' : LockObj) (p p' : LPC)
    (h : tstep .FAAlock l p = some (l', p')) :
    (p = .idle ∧ p' = .wait l.ticketNumber ∧
      l' = { l with ticketNumber := wrap32 (l.ticketNumber + 1) }) ∨
    (∃ m, p = .wait m ∧ l.turn ≠ m ∧ p' = .wait m ∧ l' = l) ∨
    (∃ m, p = .wait m ∧ l.turn = m ∧ p' = .held ∧ l' = l) ∨
    (p = .held ∧ p' = .idle ∧ l' = { l with turn := wrap32 (l.turn + 1) }) := by
  cases p <;> simp [tstep, ILock.Lock, ILock.Unlock, FAAlock.Lock, FAAlock.Unlock] at h
  · obtain ⟨rfl, rfl⟩ := h; simp
  · next m =>
    obtain ⟨rfl, rfl⟩ := h
    by_cases hm : l.turn = m <;> simp [hm]
  · obtain ⟨rfl, rfl⟩ := h; simp

theorem faa_preserve_issue {n : Nat} {s : LState n} {g : Ghost n} {iss acq : List (Fin n)}
    {i : Fin n} (hI : FAAInv s g) (hL : LogInv s g iss acq) (hp : s.pc i = .idle) :
    FAAInv ⟨{ s.lock with ticketNumber := wrap32 (s.lock.ticketNumber + 1) },
        Function.update s.pc i (.wait s.lock.ticketNumber)⟩
      ⟨g.base, g.served, g.issued + 1, Function.update g.tk i g.issued⟩ ∧
    LogInv ⟨{ s.lock with ticketNumber := wrap32 (s.lock.ticketNumber + 1) },
        Function.update s.pc i (.wait s.lock.ticketNumber)⟩
      ⟨g.base, g.served, g.issued + 1, Function.update g.tk i g.issued⟩ (iss ++ [i]) acq := by
  have hina : (s.pc i).active = false := by rw [hp]; rfl
  have hact : ∀ j, j ≠ i → (Function.update s.pc i (LPC.wait s.lock.ticketNumber) j) = s.pc j :=
    fun j hj => Function.update_noteq hj _ _
  have htk : ∀ j, j ≠ i → (Function.update g.tk i g.issued j) = g.tk j :=
    fun j hj => Function.update_noteq hj _ _
  have hne : ∀ j, (s.pc j).active = true → j ≠ i := by
    intro j hj hji; subst hji; rw [hina] at hj; cases hj
  constructor
  · refine ⟨hI.turn_eq, ?_, ?_, ?_, ?_, ?_, ?_, ?_⟩
    · show wrap32 (s.lock.ticketNumber + 1) = wrap32 ((g.issued + 1 : Nat) : Int)
      rw [hI.tick_eq, wrap32_succ]; push_cast; rfl
    · show g.served ≤ g.issued + 1
      have := hI.le; omega
    · intro j hj
      show g.served ≤ Function.update g.tk i g.issued j ∧
        Function.update g.tk i g.issued j < g.issued + 1
      by_cases hji : j = i
      · subst hji; simp only [Function.update_same]; have := hI.le; omega
      · simp only [hact j hji] at hj
        rw [htk j hji]; have := hI.rng j hj; omega
    · intro j m hj
      show m = wrap32 ((Function.update g.tk i g.issued j : Nat) : Int)
      by_cases hji : j = i
      · subst hji
        simp only [Function.update_same] at hj ⊢
        injection hj with hj
        rw [← hj, hI.tick_eq]
      · simp only [hact j hji] at hj
        rw [htk j hji]; exact hI.myturn j m hj
    · intro a b ha hb hab
      simp only at ha hb hab
      by_cases hai : a = i <;> by_cases hbi : b = i
      · rw [hai, hbi]
      · subst hai
        rw [hact b hbi] at hb
        simp only [Function.update_same, htk b hbi] at hab
        have := (hI.rng b hb).2; omega
      · subst hbi
        rw [hact a hai] at ha
        simp only [Function.update_same, htk a hai] at hab
        have := (hI.rng a ha).2; omega
      · rw [hact a hai] at ha; rw [hact b hbi] at hb
        rw [htk a hai, htk b hbi] at hab
        exact hI.inj a b ha hb hab
    · intro k hk1 hk2
      simp only at hk1 hk2 ⊢
      by_cases hki : k = g.issued
      · exact ⟨i, by simp [LPC.active], by simp [hki]⟩
      · obtain ⟨j, hj, hjk⟩ := hI.surj k hk1 (by omega)
        have hji := hne j hj
        exact ⟨j, by rw [hact j hji]; exact hj, by rw [htk j hji]; exact hjk⟩
    · intro j hj
      simp only at hj ⊢
      by_cases hji : j = i
      · subst hji; simp at hj
      · rw [hact j hji] at hj; rw [htk j hji]; exact hI.holder j hj
  · refine ⟨hL.base_le, ?_, ?_, ?_⟩
    · show (iss ++ [i]).length + g.base = g.issued + 1
      have := hL.iss_len; simp; omega
    · intro j hj
      simp only at hj ⊢
      by_cases hji : j = i
      · subst hji
        simp only [Function.update_same]
        have := hL.iss_len
        have h2 : g.issued - g.base = iss.length := by omega
        rw [h2]; simp
      · rw [hact j hji] at hj; rw [htk j hji]
        have h1 := hL.iss_tk j hj
        have h2 := hI.rng j hj
        have h3 := hL.iss_len
        have h4 := hL.base_le
        rw [List.getElem?_append_left (by omega)]; exact h1
    · have h3 := hL.iss_len
      have h4 := hL.base_le
      have h5 := hI.le
      rcases hL.acq_eq with ⟨h1, h2⟩ | ⟨h1, j, hj⟩
      · left
        refine ⟨?_, ?_⟩
        · show acq = List.take (g.served - g.base) (iss ++ [i])
          rw [List.take_append_of_le_length (by omega)]; exact h1
        · intro j
          show Function.update s.pc i (LPC.wait s.lock.ticketNumber) j ≠ LPC.held
          by_cases hji : j = i
          · subst hji; simp
          · rw [hact j hji]; exact h2 j
      · right
        have hja : (s.pc j).active = true := by rw [hj]; rfl
        have h6 := hI.rng j hja
        have h7 := hI.holder j hj
        refine ⟨?_, j, ?_⟩
        · show acq = List.take (g.served - g.base + 1) (iss ++ [i])
          rw [List.take_append_of_le_length (by omega)]; exact h1
        · show Function.update s.pc i (LPC.wait s.lock.ticketNumber) j = LPC.held
          rw [hact j (hne j hja)]; exact hj

theorem faa_preserve_acquire {n : Nat} {s : LState n} {g : Ghost n} {iss acq : List (Fin n)}
    {i : Fin n} {m : Int} (hI : FAAInv s g) (hL : LogInv s g iss acq)
    (hb : g.issued ≤ g.served + 4294967296) (hp : s.pc i = .wait m) (hm : s.lock.turn = m) :
    FAAInv ⟨s.lock, Function.update s.pc i .held⟩ g ∧
    LogInv ⟨s.lock, Function.update s.pc i .held⟩ g iss (acq ++ [i]) := by
  have hia : (s.pc i).active = true := by rw [hp]; rfl
  have hri := hI.rng i hia
  have htki : g.tk i = g.served := by
    have h1 := hI.myturn i m hp
    have h2 := hI.turn_eq
    rw [hm, h1] at h2
    exact (wrap32_inj_of_lt _ _ hri.1 (by omega) h2.symm).symm
  have hnoh : ∀ j, s.pc j ≠ .held := by
    intro j hj
    have hja : (s.pc j).active = true := by rw [hj]; rfl
    have := hI.inj j i hja hia (by rw [hI.holder j hj, htki])
    subst this; rw [hp] at hj; cases hj
  have hne : ∀ j, j ≠ i → (Function.update s.pc i LPC.held j) = s.pc j :=
    fun j hj => Function.update_noteq hj _ _
  have hact : ∀ j, (Function.update s.pc i LPC.held j).active = (s.pc j).active := by
    intro j
    by_cases hji : j = i
    · subst hji; rw [Function.update_same, hia]; rfl
    · rw [hne j hji]
  constructor
  · refine ⟨hI.turn_eq, hI.tick_eq, hI.le, ?_, ?_, ?_, ?_, ?_⟩
    · intro j hj; simp only [hact] at hj; exact hI.rng j hj
    · intro j k hj
      simp only at hj
      by_cases hji : j = i
      · subst hji; simp at hj
      · rw [hne j hji] at hj; exact hI.myturn j k hj
    · intro a b ha hb hab
      simp only [hact] at ha hb
      exact hI.inj a b ha hb hab
    · intro k hk1 hk2
      obtain ⟨j, hj, hjk⟩ := hI.surj k hk1 hk2
      exact ⟨j, by simp only [hact]; exact hj, hjk⟩
    · intro j hj
      simp only at hj
      by_cases hji : j = i
      · subst hji; exact htki
      · rw [hne j hji] at hj; exact absurd hj (hnoh j)
  · refine ⟨hL.base_le, hL.iss_len, ?_, ?_⟩
    · intro j hj; simp only [hact] at hj; exact hL.iss_tk j hj
    · right
      refine ⟨?_, i, by simp⟩
      rcases hL.acq_eq with ⟨h1, _⟩ | ⟨_, j, hj⟩
      · have h2 := hL.iss_tk i hia
        rw [htki] at h2
        rw [List.take_succ, h2, h1]; rfl
      · exact absurd hj (hnoh j)

theorem faa_preserve_unlock {n : Nat} {s : LState n} {g : Ghost n} {iss acq : List (Fin n)}
    {i : Fin n} (hI : FAAInv s g) (hL : LogInv s g iss acq) (hp : s.pc i = .held) :
    FAAInv ⟨{ s.lock with turn := wrap32 (s.lock.turn + 1) }, Function.update s.pc i .idle⟩
      ⟨g.base, g.served + 1, g.issued, g.tk⟩ ∧
    LogInv ⟨{ s.lock with turn := wrap32 (s.lock.turn + 1) }, Function.update s.pc i .idle⟩
      ⟨g.base, g.served + 1, g.issued, g.tk⟩ iss acq := by
  have hia : (s.pc i).active = true := by rw [hp]; rfl
  have hri := hI.rng i hia
  have htki := hI.holder i hp
  have hne : ∀ j, j ≠ i → (Function.update s.pc i LPC.idle j) = s.pc j :=
    fun j hj => Function.update_noteq hj _ _
  have hact : ∀ j, (Function.update s.pc i LPC.idle j).active = true →
      j ≠ i ∧ (s.pc j).active = true := by
    intro j hj
    by_cases hji : j = i
    · subst hji; simp [LPC.active] at hj
    · rw [hne j hji] at hj; exact ⟨hji, hj⟩
  have hnoh : ∀ j, Function.update s.pc i LPC.idle j ≠ .held := by
    intro j hj
    by_cases hji : j = i
    · subst hji; simp at hj
    · rw [hne j hji] at hj
      have hja : (s.pc j).active = true := by rw [hj]; rfl
      exact hji (hI.inj j i hja hia (by rw [hI.holder j hj, htki]))
  constructor
  · refine ⟨?_, hI.tick_eq, ?_, ?_, ?_, ?_, ?_, ?_⟩
    · show wrap32 (s.lock.turn + 1) = wrap32 ((g.served + 1 : Nat) : Int)
      rw [hI.turn_eq, wrap32_succ]; push_cast; rfl
    · show g.served + 1 ≤ g.issued
      omega
    · intro j hj
      obtain ⟨hji, hja⟩ := hact j hj
      have h1 := hI.rng j hja
      have h2 : g.tk j ≠ g.served := fun h => hji (hI.inj j i hja hia (by rw [h, htki]))
      show g.served + 1 ≤ g.tk j ∧ g.tk j < g.issued
      omega
    · intro j k hj
      simp only at hj
      by_cases hji : j = i
      · subst hji; simp at hj
      · rw [hne j hji] at hj; exact hI.myturn j k hj
    · intro a b ha hb hab
      exact hI.inj a b (hact a ha).2 (hact b hb).2 hab
    · intro k hk1 hk2
      simp only at hk1 hk2
      obtain ⟨j, hj, hjk⟩ := hI.surj k (by omega) hk2
      have hji : j ≠ i := by
        intro h; subst h; omega
      exact ⟨j, by simp only [hne j hji]; exact hj, hjk⟩
    · intro j hj; exact absurd hj (hnoh j)
  · refine ⟨?_, hL.iss_len, ?_, ?_⟩
    · show g.base ≤ g.served + 1
      have := hL.base_le; omega
    · intro j hj; exact hL.iss_tk j (hact j hj).2
    · left
      refine ⟨?_, hnoh⟩
      rcases hL.acq_eq with ⟨_, h2⟩ | ⟨h1, _⟩
      · exact absurd hp (h2 i)
      · have := hL.base_le
        have h3 : g.served + 1 - g.base = g.served - g.base + 1 := by omega
        show acq = List.take (g.served + 1 - g.base) iss
        rw [h3]; exact h1

theorem FAAInv.outstanding_le {n : Nat} {s : LState n} {g : Ghost n} (hI : FAAInv s g) :
    g.issued ≤ g.served + n := by
  have hex : ∀ k : Fin (g.issued - g.served),
      ∃ i, (s.pc i).active = true ∧ g.tk i = g.served + k.val :=
    fun k => hI.surj (g.served + k.val) (by omega) (by have := k.isLt; omega)
  choose f hf using hex
  have hinj : Function.Injective f := by
    intro a b hab
    have h1 := (hf a).2
    have h2 := (hf b).2
    rw [hab] at h1
    exact Fin.ext (by omega)
  have := Fintype.card_le_of_injective f hinj
  simp only [Fintype.card_fin] at this
  omega

theorem faa_preserve {n : Nat} {s s' : LState n} {g : Ghost n} {iss acq : List (Fin n)}
    {i : Fin n} (hI : FAAInv s g) (hL : LogInv s g iss acq)
    (hb : g.issued ≤ g.served + 4294967296) (h : s.step .FAAlock i = some s') :
    ∃ g', FAAInv s' g' ∧
      LogInv s' g' (if s.pc i = .idle then iss ++ [i] else iss)
        (if s'.pc i = .held then acq ++ [i] else acq) ∧
      g'.base = g.base ∧ g.served ≤ g'.served ∧ g.issued ≤ g'.issued := by
  obtain ⟨l', p', ht, rfl⟩ := LState.step_eq h
  simp only [Function.update_same]
  rcases faa_step_cases _ _ _ _ ht with ⟨hp, rfl, rfl⟩ | ⟨m, hp, _, rfl, rfl⟩ |
    ⟨m, hp, hm, rfl, rfl⟩ | ⟨hp, rfl, rfl⟩
  · obtain ⟨h1, h2⟩ := faa_preserve_issue hI hL hp
    refine ⟨_, h1, ?_, rfl, le_refl _, Nat.le_succ _⟩
    simpa [hp] using h2
  · refine ⟨g, ?_, ?_, rfl, le_refl _, le_refl _⟩
    · rw [← hp, Function.update_eq_self]; exact hI
    · rw [← hp, Function.update_eq_self]; simpa [hp] using hL
  · obtain ⟨h1, h2⟩ := faa_preserve_acquire hI hL hb hp hm
    refine ⟨_, h1, ?_, rfl, le_refl _, le_refl _⟩
    simpa [hp] using h2
  · obtain ⟨h1, h2⟩ := faa_preserve_unlock hI hL hp
    refine ⟨_, h1, ?_, rfl, Nat.le_succ _, le_refl _⟩
    simpa [hp] using h2

theorem faa_init_inv {n : Nat} {l0 : LockObj} (h0 : released .FAAlock l0) :
    FAAInv (LState.init n l0)
      ⟨(l0.turn % 4294967296).toNat, (l0.turn % 4294967296).toNat,
        (l0.turn % 4294967296).toNat, fun _ => 0⟩ ∧
    LogInv (LState.init n l0)
      ⟨(l0.turn % 4294967296).toNat, (l0.turn % 4294967296).toNat,
        (l0.turn % 4294967296).toNat, fun _ => 0⟩ [] [] := by
  obtain ⟨h1, h2⟩ := h0
  have hw : l0.turn = wrap32 (((l0.turn % 4294967296).toNat : Nat) : Int) := by
    unfold wrap32 at h2 ⊢; omega
  constructor
  · refine ⟨hw, ?_, le_refl _, ?_, ?_, ?_, ?_, ?_⟩
    · show l0.ticketNumber = _
      rw [← h1]; exact hw
    · intro i hi; simp [LState.init, LPC.active] at hi
    · intro i m hi; simp [LState.init] at hi
    · intro i j hi; simp [LState.init, LPC.active] at hi
    · intro k hk1 hk2; simp only at hk1 hk2; omega
    · intro i hi; simp [LState.init] at hi
  · refine ⟨le_refl _, by simp, ?_, ?_⟩
    · intro i hi; simp [LState.init, LPC.active] at hi
    · left; exact ⟨by simp, fun i => by simp [LState.init]⟩

theorem faa_trace_inv {n : Nat} {l0 : LockObj} (h0 : released .FAAlock l0) {s : LState n}
    {iss acq : List (Fin n)} (htr : LTrace .FAAlock l0 s iss acq)
    (hbound : n ≤ 4294967296 ∨ iss.length ≤ 4294967296) :
    ∃ g, FAAInv s g ∧ LogInv s g iss acq ∧ g.base = (l0.turn % 4294967296).toNat := by
  induction htr with
  | init => exact ⟨_, (faa_init_inv h0).1, (faa_init_inv h0).2, rfl⟩
  | @step s s' iss acq i _ hstep ih =>
    have hbound' : n ≤ 4294967296 ∨ iss.length ≤ 4294967296 := by
      rcases hbound with h | h
      · exact Or.inl h
      · right
        split at h
        · simp at h; omega
        · exact h
    obtain ⟨g, hI, hL, hbase⟩ := ih hbound'
    have hb : g.issued ≤ g.served + 4294967296 := by
      rcases hbound' with h | h
      · have := hI.outstanding_le; omega
      · have h1 := hL.iss_len
        have h2 := hL.base_le
        omega
    obtain ⟨g', hI', hL', hbase', _, _⟩ := faa_preserve hI hL hb hstep
    exact ⟨g', hI', hL', hbase'.trans hbase⟩

theorem LState.step_of_tstep {n : Nat} {v : Variant} {s : LState n} {i : Fin n}
    {l' : LockObj} {p' : LPC} (h : tstep v s.lock (s.pc i) = some (l', p')) :
    s.step v i = some ⟨l', Function.update s.pc i p'⟩ := by
  unfold LState.step; rw [h]

theorem LState.runLog_trace {v : Variant} {n : Nat} {l0 : LockObj} (sched : List (Fin n)) :
    ∀ {s s' : LState n} {iss acq iss' acq' : List (Fin n)}, LTrace v l0 s iss acq →
      LState.runLog v (s, iss, acq) sched = some (s', iss', acq') →
      LTrace v l0 s' iss' acq' := by
  induction sched with
  | nil =>
    intro s s' iss acq iss' acq' hs h
    simp only [LState.runLog, Option.some.injEq, Prod.mk.injEq] at h
    obtain ⟨rfl, rfl, rfl⟩ := h
    exact hs
  | cons i sched ih =>
    intro s s' iss acq iss' acq' hs h
    unfold LState.runLog at h
    split at h
    · next s1 h1 => exact ih (LTrace.step i hs h1) h
    · cases h

theorem single_step {v : Variant} {l0 l l' : LockObj} {p p' : LPC}
    (hs : LReach v l0 (⟨l, fun _ => p⟩ : LState 1)) (ht : tstep v l p = some (l', p')) :
    LReach v l0 (⟨l', fun _ => p'⟩ : LState 1) := by
  have h := LReach.step (0 : Fin 1) hs (LState.step_of_tstep ht)
  have heq : Function.update (fun _ : Fin 1 => p) 0 p' = fun _ => p' := by
    funext j; rw [Fin.eq_zero j]; simp
  simpa [heq] using h

theorem faa_pairs_reach (k : Nat) :
    LReach .FAAlock fresh (⟨⟨false, wrap32 k, wrap32 k⟩, fun _ => .idle⟩ : LState 1) := by
  induction k with
  | zero =>
    have : (⟨⟨false, wrap32 (0 : Nat), wrap32 (0 : Nat)⟩, fun _ => .idle⟩ : LState 1) =
        LState.init 1 fresh := by
      simp [LState.init, fresh, wrap32_zero]
    rw [this]; exact LReach.init
  | succ k ih =>
    have h1 := single_step ih
      (show tstep .FAAlock _ .idle = some (⟨false, wrap32 (wrap32 k + 1), wrap32 k⟩,
        .wait (wrap32 k)) from rfl)
    have h2 := single_step h1
      (show tstep .FAAlock _ (.wait (wrap32 k)) =
        some (⟨false, wrap32 (wrap32 k + 1), wrap32 k⟩, .held) by
        simp [tstep, ILock.Lock, FAAlock.Lock])
    have h3 := single_step h2
      (show tstep .FAAlock _ .held =
        some (⟨false, wrap32 (wrap32 k + 1), wrap32 (wrap32 k + 1)⟩, .idle) from rfl)
    rw [wrap32_succ] at h3
    push_cast
    exact h3

/-- C6 (counterexample): one thread performs 2^31 - 1 `Lock()`/`Unlock()` pairs
and then the fetch-and-add of one more `Lock()`.  `ticketNumber` wraps from
2147483647 to -2147483648: the step decreases `ticketNumber`, and afterwards
`turn = 2147483647` exceeds `ticketNumber`. -/
theorem C6_ticketNumber_wraps :
    ∃ s s' : LState 1, LReach .FAAlock fresh s ∧ s.step .FAAlock 0 = some s' ∧
      s.lock.ticketNumber = 2147483647 ∧ s'.lock.ticketNumber = -2147483648 ∧
      s'.lock.turn = 2147483647 ∧ s'.lock.ticketNumber < s.lock.ticketNumber ∧
      ¬ (s'.lock.turn ≤ s'.lock.ticketNumber) := by
  have h := faa_pairs_reach 2147483647
  have hw : wrap32 ((2147483647 : Nat) : Int) = 2147483647 := by
    simp only [wrap32]; norm_num
  rw [hw] at h
  refine ⟨_, _, h, LState.step_of_tstep (show tstep .FAAlock _ _ = some (_, _) from rfl), ?_⟩
  simp only [wrap32]
  norm_num

/-- C6 (amended): ticket-state invariant.  In every state of `FAAlock` reached
from construction, by any number of threads that call `Unlock()` only as
holder, in which fewer than 2^31 tickets have been drawn, `ticketNumber` is the
number of tickets drawn, `0 ≤ turn ≤ ticketNumber`, and a step that leads to
another such state decreases neither `ticketNumber` nor `turn`. -/
theorem C6_ticket_invariant (n : Nat) (s : LState n) (iss acq : List (Fin n))
    (htr : LTrace .FAAlock fresh s iss acq) (hlen : iss.length < 2147483648) :
    s.lock.ticketNumber = iss.length ∧ 0 ≤ s.lock.turn ∧
    s.lock.turn ≤ s.lock.ticketNumber ∧
    ∀ (i : Fin n) (s' : LState n), s.step .FAAlock i = some s' →
      (if s.pc i = .idle then iss ++ [i] else iss).length < 2147483648 →
      s.lock.ticketNumber ≤ s'.lock.ticketNumber ∧ s.lock.turn ≤ s'.lock.turn := by
  have h0 : released .FAAlock fresh := by simp [released, fresh, wrap32_zero]
  obtain ⟨g, hI, hL, hbase⟩ := faa_trace_inv h0 htr (Or.inr (by omega))
  have hb0 : g.base = 0 := by rw [hbase]; simp [fresh]
  have h1 := hL.iss_len
  have h2 := hI.le
  have hi1 : g.issued = iss.length := by omega
  have hi2 : g.served < 2147483648 := by omega
  have h3 : s.lock.turn = g.served := by
    rw [hI.turn_eq]; exact wrap32_of_lt _ hi2
  have h4 : s.lock.ticketNumber = g.issued := by
    rw [hI.tick_eq]; exact wrap32_of_lt _ (by omega)
  refine ⟨by rw [h4, hi1], by rw [h3]; exact Int.natCast_nonneg _,
    by rw [h3, h4]; exact Int.ofNat_le.2 h2, ?_⟩
  intro i s' hstep hlen'
  have hb : g.issued ≤ g.served + 4294967296 := by omega
  obtain ⟨g', hI', hL', hbase', hs, hi⟩ := faa_preserve hI hL hb hstep
  generalize (if s.pc i = LPC.idle then iss ++ [i] else iss) = iss' at hlen' hL'
  have h1' := hL'.iss_len
  have h2' := hI'.le
  have hi1' : g'.issued < 2147483648 := by omega
  have hi2' : g'.served < 2147483648 := by omega
  have h3' : s'.lock.turn = g'.served := by
    rw [hI'.turn_eq]; exact wrap32_of_lt _ hi2'
  have h4' : s'.lock.ticketNumber = g'.issued := by
    rw [hI'.tick_eq]; exact wrap32_of_lt _ hi1'
  rw [h3, h4, h3', h4']
  exact ⟨Int.ofNat_le.2 hi, Int.ofNat_le.2 hs⟩

/-- C6 (witness): two threads; thread 0 draws ticket 0 and acquires, thread 1
draws ticket 1. -/
theorem C6_ticket_invariant_witness :
    ∃ (s : LState 2) (iss acq : List (Fin 2)),
      LState.runLog .FAAlock (LState.init 2 fresh, [], []) [0, 0, 1] = some (s, iss, acq) ∧
      iss = [0, 1] ∧ acq = [0] ∧ s.lock.ticketNumber = 2 ∧ s.lock.turn = 0 ∧
      s.lock.ticketNumber = iss.length ∧ 0 ≤ s.lock.turn ∧
      s.lock.turn ≤ s.lock.ticketNumber :=
  have hrun : LState.runLog .FAAlock (LState.init 2 fresh, [], []) [0, 0, 1] =
      some (⟨⟨false, 2, 0⟩, Function.update (Function.update (Function.update
        (fun _ => .idle) 0 (.wait 0)) 0 .held) 1 (.wait 1)⟩, [0, 1], [0]) := by
    with_unfolding_all rfl
  ⟨_, _, _, hrun, rfl, rfl, rfl, rfl,
    (C6_ticket_invariant 2 _ _ _ (LState.runLog_trace [0, 0, 1] LTrace.init hrun)
      (by decide)).1,
    (C6_ticket_invariant 2 _ _ _ (LState.runLog_trace [0, 0, 1] LTrace.init hrun)
      (by decide)).2.1,
    (C6_ticket_invariant 2 _ _ _ (LState.runLog_trace [0, 0, 1] LTrace.init hrun)
      (by decide)).2.2.1⟩

end Hw3
